import Mathlib

/-!
A shallow embedding of the MQTT sink in `src/sinks/mqtt/sink.rs`.

The sink's external collaborators (template rendering, the value transformer,
the encoder, the mqtt client library) are opaque to the sink; their outcomes
on a given event or call are modelled as oracle data carried by the event
(`renderResult`, `encodeResult`) and by the per-connection oracle
(`polls`, `pubs`).  The `tokio::select!` scheduler of the inner loop is
modelled by an explicit finite list of branch choices (`Sel`); when the list
is exhausted the loop keeps draining the upstream sequence, which is one
canonical completion of the nondeterminism and covers every terminating
execution up to a long enough choice list.

Every observable side effect of the code (taking finalizers, rendering,
transforming, encoding, publishing, emitting internal events, reporting a
finalizer status, connecting, disconnecting) is recorded as an `Action` in a
trace, in the order the Rust statements execute.
-/

namespace MqttModel

/-- QoS levels of the external mqtt client library (`rumqttc::QoS`). -/
inductive QoS where
  | atMostOnce
  | atLeastOnce
  | exactlyOnce
deriving DecidableEq

/-- The two terminal delivery statuses the sink reports
(`EventStatus::Delivered`, `EventStatus::Errored`). -/
inductive EventStatus where
  | delivered
  | errored
deriving DecidableEq

/-- An upstream event, identified by `id`, together with the outcomes of the
opaque collaborators on it: `renderResult` models
`self.connector.topic.render_string(&event)` (the shared compiled template
applied to this event; `some topic` on success, `none` on render error) and
`encodeResult` models `self.encoder.encode(event, &mut bytes)` applied after
the infallible `self.transformer.transform(&mut event)` (`some payload` on
success, `none` on encode error). -/
structure MEvent where
  id : Nat
  renderResult : Option String
  encodeResult : Option (List Nat)
deriving DecidableEq

/-- One observable step of the sink, in source order of
`MqttSink::handle_events` and `MqttSink::run`. -/
inductive Action where
  /-- `self.connector.connect()` in `run`. -/
  | connect
  /-- `client.disconnect().await` in `run`. -/
  | disconnect
  /-- `event.take_finalizers()` for the event with this id. -/
  | detach (k : Nat)
  /-- the call `self.connector.topic.render_string(&event)` and whether it
  succeeded. -/
  | render (k : Nat) (ok : Bool)
  /-- `emit!(TemplateRenderingError { .. })` on the render-error path. -/
  | emitRenderError (k : Nat)
  /-- `self.transformer.transform(&mut event)`. -/
  | transform (k : Nat)
  /-- the call `self.encoder.encode(event, &mut bytes)` and whether it
  succeeded. -/
  | encode (k : Nat) (ok : Bool)
  /-- `client.publish(&topic, qos, retain, message).await` with its arguments. -/
  | publish (k : Nat) (topic : String) (qos : QoS) (retain : Bool) (payload : List Nat)
  /-- `emit!(EventsSent { .. })` on the publish-success path. -/
  | emitEventsSent (k : Nat)
  /-- `emit!(BytesSent { .. })` on the publish-success path. -/
  | emitBytesSent (k : Nat)
  /-- `emit!(MqttConnectionError { .. })` on the transport-poll-error path. -/
  | emitConnectionError
  /-- `emit!(MqttClientError { .. })` on the publish-error path. -/
  | emitClientError (k : Nat)
  /-- `finalizers.update_status(status)` for the event with this id. -/
  | report (k : Nat) (status : EventStatus)
deriving DecidableEq

/-- Which `tokio::select!` branch wins one iteration of the inner loop:
`poll` is the `connection.poll()` branch, `event` is the `input.next()`
branch. -/
inductive Sel where
  | poll
  | event
deriving DecidableEq

/-- The body of the `event = input.next()` branch of `handle_events` applied
to one pulled event, translated statement by statement from the source:
take finalizers; render the topic (on error: emit, report `Errored`,
continue); transform; encode (on error: report `Errored`, continue);
publish with `QoS::ExactlyOnce` and `retain = false` (on success: emit
events/bytes sent, report `Delivered`; on error: emit client error, report
`Errored`, and return `Err(())` from the loop).  `pubs` is the oracle of
publish-call outcomes, consumed one entry per publish call (an exhausted
oracle means the call succeeds).  Returns the action trace, whether the
outcome is fatal for the connection (`return Err(())`), and the remaining
publish oracle. -/
def processEvent (e : MEvent) (pubs : List Bool) :
    List Action × Bool × List Bool :=
  match e.renderResult with
  | none =>
      ([Action.detach e.id, Action.render e.id false, Action.emitRenderError e.id,
        Action.report e.id EventStatus.errored], false, pubs)
  | some topic =>
      match e.encodeResult with
      | none =>
          ([Action.detach e.id, Action.render e.id true, Action.transform e.id,
            Action.encode e.id false, Action.report e.id EventStatus.errored], false, pubs)
      | some payload =>
          if pubs.headD true then
            ([Action.detach e.id, Action.render e.id true, Action.transform e.id,
              Action.encode e.id true,
              Action.publish e.id topic QoS.exactlyOnce false payload,
              Action.emitEventsSent e.id, Action.emitBytesSent e.id,
              Action.report e.id EventStatus.delivered], false, pubs.tail)
          else
            ([Action.detach e.id, Action.render e.id true, Action.transform e.id,
              Action.encode e.id true,
              Action.publish e.id topic QoS.exactlyOnce false payload,
              Action.emitClientError e.id,
              Action.report e.id EventStatus.errored], true, pubs.tail)

/-- The inner loop of `handle_events` once the scheduler oracle is exhausted:
every remaining iteration is won by the `input.next()` branch, so the loop
drains the upstream sequence until it is exhausted (`break`, success) or a
publish call fails (`return Err(())`).  Returns the action trace, the loop
result, the events not yet pulled, and the remaining publish oracle. -/
def drainEvents (pubs : List Bool) (events : List MEvent) :
    List Action × Except Unit Unit × List MEvent × List Bool :=
  match events with
  | [] => ([], Except.ok (), [], pubs)
  | e :: rest =>
      match processEvent e pubs with
      | (acts, fatal, pubs') =>
          if fatal then (acts, Except.error (), rest, pubs')
          else
            match drainEvents pubs' rest with
            | (acts', r, rem, pubs2) => (acts ++ acts', r, rem, pubs2)

/-- `MqttSink::handle_events`: the inner `loop { tokio::select! { .. } }`.
`sched` is the scheduler oracle deciding which branch wins each iteration;
`polls` is the oracle of `connection.poll()` outcomes (`true` = `Ok`,
consumed one per poll, an exhausted oracle means `Ok`); `pubs` is the
publish-call oracle.  A failed poll emits a connection error and returns
`Err(())`; pulling `None` breaks with success; otherwise the pulled event
goes through `processEvent`.  Returns the action trace, the loop result,
the events not yet pulled, and the remaining publish oracle. -/
def handleEvents (sched : List Sel) (polls pubs : List Bool) (events : List MEvent) :
    List Action × Except Unit Unit × List MEvent × List Bool :=
  match sched with
  | [] => drainEvents pubs events
  | Sel.poll :: sched' =>
      if polls.headD true then
        handleEvents sched' polls.tail pubs events
      else
        ([Action.emitConnectionError], Except.error (), events, pubs)
  | Sel.event :: sched' =>
      match events with
      | [] => ([], Except.ok (), [], pubs)
      | e :: rest =>
          match processEvent e pubs with
          | (acts, fatal, pubs') =>
              if fatal then (acts, Except.error (), rest, pubs')
              else
                match handleEvents sched' polls pubs' rest with
                | (acts', r, rem, pubs2) => (acts ++ acts', r, rem, pubs2)

/-- The oracle data for one connection attempt: the scheduler choices and the
poll outcomes of its transport driver, the publish-call outcomes of its
client handle, and the outcome of the final `client.disconnect()` call
(which the code discards with `let _ =`). -/
structure ConnOracle where
  sched : List Sel
  polls : List Bool
  pubs : List Bool
  disconnectOk : Bool
deriving DecidableEq

/-- `MqttSink::run`: the outer `while input.peek().is_some()` loop.  If the
peek finds the upstream sequence exhausted the sink returns `Ok(())` without
connecting; otherwise it connects, runs `handle_events`, and on inner-loop
success gracefully disconnects (discarding the disconnect outcome) while on
inner-loop failure it just drops the pair; then it loops.  `conns` gives the
oracle for each successive connection attempt; when it is exhausted the
remaining connections behave like the default oracle (empty scheduler, all
publish calls accepted), which is the canonical terminating completion. -/
def run (events : List MEvent) (conns : List ConnOracle) :
    List Action × Except Unit Unit :=
  match events with
  | [] => ([], Except.ok ())
  | e :: rest =>
      match conns with
      | [] =>
          match drainEvents [] (e :: rest) with
          | (acts, Except.ok _, _, _) =>
              (Action.connect :: (acts ++ [Action.disconnect]), Except.ok ())
          | (acts, Except.error _, _, _) =>
              (Action.connect :: acts, Except.ok ())
      | c :: cs =>
          match handleEvents c.sched c.polls c.pubs (e :: rest) with
          | (acts, Except.ok _, rem, _) =>
              (Action.connect :: (acts ++ Action.disconnect :: (run rem cs).1), Except.ok ())
          | (acts, Except.error _, rem, _) =>
              (Action.connect :: (acts ++ (run rem cs).1), Except.ok ())

/-- The finalizer reports in a trace, in order: event id and reported status. -/
def reportsOf (tr : List Action) : List (Nat × EventStatus) :=
  tr.filterMap fun a =>
    match a with
    | Action.report k s => some (k, s)
    | _ => none

/-- The event ids receiving a finalizer report in a trace, in order. -/
def reportedIds (tr : List Action) : List Nat :=
  tr.filterMap fun a =>
    match a with
    | Action.report k _ => some k
    | _ => none

/-- The event ids of the publish calls in a trace, in order. -/
def publishedIds (tr : List Action) : List Nat :=
  tr.filterMap fun a =>
    match a with
    | Action.publish k _ _ _ _ => some k
    | _ => none

/-- The (qos, retain) arguments of the publish calls in a trace, in order. -/
def publishMeta (tr : List Action) : List (QoS × Bool) :=
  tr.filterMap fun a =>
    match a with
    | Action.publish _ _ q r _ => some (q, r)
    | _ => none

/-- Opaque broker connection parameters (`rumqttc::MqttOptions`): address,
credentials, keep-alive, TLS.  The connector stores them unvalidated. -/
structure MqttOptions where
  host : String
  port : Nat
  clientId : String
deriving DecidableEq

/-- A compiled topic template (the opaque external `crate::template::Template`). -/
structure Template where
  pattern : String
deriving DecidableEq

/-- The opaque parse error of the external template compiler. -/
structure TemplateParseError where
  msg : String
deriving DecidableEq

/-- The `MqttError` enum of the sink module. -/
inductive MqttError where
  | topicTemplate (source : TemplateParseError)
  | connection
  | tls
  | client
deriving DecidableEq

/-- `MqttConnector`: broker options plus the compiled topic template. -/
structure MqttConnector where
  options : MqttOptions
  topic : Template
deriving DecidableEq

/-- `MqttConnector::new`: compiles the topic pattern through the external
`Template::try_from` (passed in as the oracle `tryFrom` since the template
engine is an external collaborator), wrapping a compile failure in
`MqttError::TopicTemplate`; the options are stored untouched. -/
def MqttConnector.new (tryFrom : String → Except TemplateParseError Template)
    (options : MqttOptions) (topic : String) : Except MqttError MqttConnector :=
  match tryFrom topic with
  | Except.error e => Except.error (MqttError.topicTemplate e)
  | Except.ok t => Except.ok ⟨options, t⟩

/-! ## Helper lemmas -/

theorem processEvent_reportedIds (e : MEvent) (pubs : List Bool) :
    reportedIds (processEvent e pubs).1 = [e.id] := by
  rcases e with ⟨k, r, enc⟩
  cases r with
  | none => rfl
  | some t =>
    cases enc with
    | none => rfl
    | some p =>
      cases pubs with
      | nil => rfl
      | cons b bs => cases b <;> rfl

theorem processEvent_no_conn_actions (e : MEvent) (pubs : List Bool) :
    Action.connect ∉ (processEvent e pubs).1 ∧ Action.disconnect ∉ (processEvent e pubs).1 := by
  rcases e with ⟨k, r, enc⟩
  cases r with
  | none => simp [processEvent]
  | some t =>
    cases enc with
    | none => simp [processEvent]
    | some p =>
      cases pubs with
      | nil => simp [processEvent]
      | cons b bs => cases b <;> simp [processEvent]

theorem processEvent_publishMeta (e : MEvent) (pubs : List Bool) (qb : QoS × Bool)
    (hqb : qb ∈ publishMeta (processEvent e pubs).1) : qb = (QoS.exactlyOnce, false) := by
  rcases e with ⟨k, r, enc⟩
  cases r with
  | none => simp [processEvent, publishMeta] at hqb
  | some t =>
    cases enc with
    | none => simp [processEvent, publishMeta] at hqb
    | some p =>
      cases pubs with
      | nil =>
        simp [processEvent, publishMeta] at hqb
        exact hqb
      | cons b bs =>
        cases b <;> simp [processEvent, publishMeta] at hqb <;> exact hqb

theorem drainEvents_cons_eq (pubs : List Bool) (e : MEvent) (rest : List MEvent) :
    drainEvents pubs (e :: rest) =
      if (processEvent e pubs).2.1 then
        ((processEvent e pubs).1, Except.error (), rest, (processEvent e pubs).2.2)
      else
        ((processEvent e pubs).1 ++ (drainEvents (processEvent e pubs).2.2 rest).1,
         (drainEvents (processEvent e pubs).2.2 rest).2.1,
         (drainEvents (processEvent e pubs).2.2 rest).2.2.1,
         (drainEvents (processEvent e pubs).2.2 rest).2.2.2) := rfl

theorem handleEvents_nil_eq (polls pubs : List Bool) (events : List MEvent) :
    handleEvents [] polls pubs events = drainEvents pubs events := rfl

theorem handleEvents_poll_eq (sched : List Sel) (polls pubs : List Bool) (events : List MEvent) :
    handleEvents (Sel.poll :: sched) polls pubs events =
      if polls.headD true then handleEvents sched polls.tail pubs events
      else ([Action.emitConnectionError], Except.error (), events, pubs) := rfl

theorem handleEvents_event_nil_eq (sched : List Sel) (polls pubs : List Bool) :
    handleEvents (Sel.event :: sched) polls pubs [] = ([], Except.ok (), [], pubs) := rfl

theorem handleEvents_event_cons_eq (sched : List Sel) (polls pubs : List Bool)
    (e : MEvent) (rest : List MEvent) :
    handleEvents (Sel.event :: sched) polls pubs (e :: rest) =
      if (processEvent e pubs).2.1 then
        ((processEvent e pubs).1, Except.error (), rest, (processEvent e pubs).2.2)
      else
        ((processEvent e pubs).1 ++ (handleEvents sched polls (processEvent e pubs).2.2 rest).1,
         (handleEvents sched polls (processEvent e pubs).2.2 rest).2.1,
         (handleEvents sched polls (processEvent e pubs).2.2 rest).2.2.1,
         (handleEvents sched polls (processEvent e pubs).2.2 rest).2.2.2) := rfl

theorem run_nil_eq (conns : List ConnOracle) : run [] conns = ([], Except.ok ()) := by
  cases conns <;> rfl

theorem run_cons_nil_eq (e : MEvent) (rest : List MEvent) :
    run (e :: rest) [] =
      (match drainEvents [] (e :: rest) with
       | (acts, Except.ok _, _, _) =>
           (Action.connect :: (acts ++ [Action.disconnect]), Except.ok ())
       | (acts, Except.error _, _, _) =>
           (Action.connect :: acts, Except.ok ())) := rfl

theorem run_cons_cons_eq (e : MEvent) (rest : List MEvent) (c : ConnOracle)
    (cs : List ConnOracle) :
    run (e :: rest) (c :: cs) =
      (match handleEvents c.sched c.polls c.pubs (e :: rest) with
       | (acts, Except.ok _, rem, _) =>
           (Action.connect :: (acts ++ Action.disconnect :: (run rem cs).1), Except.ok ())
       | (acts, Except.error _, rem, _) =>
           (Action.connect :: (acts ++ (run rem cs).1), Except.ok ())) := rfl

theorem reportedIds_append (l l' : List Action) :
    reportedIds (l ++ l') = reportedIds l ++ reportedIds l' :=
  List.filterMap_append l l' _

theorem publishedIds_append (l l' : List Action) :
    publishedIds (l ++ l') = publishedIds l ++ publishedIds l' :=
  List.filterMap_append l l' _

theorem publishMeta_append (l l' : List Action) :
    publishMeta (l ++ l') = publishMeta l ++ publishMeta l' :=
  List.filterMap_append l l' _

theorem drainEvents_reportedIds (events : List MEvent) (pubs : List Bool) :
    reportedIds (drainEvents pubs events).1
      ++ ((drainEvents pubs events).2.2.1).map MEvent.id = events.map MEvent.id := by
  induction events generalizing pubs with
  | nil => simp [drainEvents, reportedIds]
  | cons e rest ih =>
    rw [drainEvents_cons_eq]
    cases hf : (processEvent e pubs).2.1 with
    | true => simp [hf, processEvent_reportedIds]
    | false =>
      simp only [hf, Bool.false_eq_true, if_false, reportedIds_append,
        processEvent_reportedIds, List.map_cons, List.cons_append, List.append_assoc]
      rw [ih]
      simp

theorem handleEvents_reportedIds (sched : List Sel) (polls pubs : List Bool)
    (events : List MEvent) :
    reportedIds (handleEvents sched polls pubs events).1
      ++ ((handleEvents sched polls pubs events).2.2.1).map MEvent.id
      = events.map MEvent.id := by
  induction sched generalizing polls pubs events with
  | nil => rw [handleEvents_nil_eq]; exact drainEvents_reportedIds events pubs
  | cons s sched' ih =>
    cases s with
    | poll =>
      rw [handleEvents_poll_eq]
      cases hp : polls.headD true with
      | true => simp only [if_true]; exact ih polls.tail pubs events
      | false => simp [reportedIds]
    | event =>
      cases events with
      | nil => simp [handleEvents_event_nil_eq, reportedIds]
      | cons e rest =>
        rw [handleEvents_event_cons_eq]
        cases hf : (processEvent e pubs).2.1 with
        | true => simp [hf, processEvent_reportedIds]
        | false =>
          simp only [hf, Bool.false_eq_true, if_false, reportedIds_append,
            processEvent_reportedIds, List.map_cons, List.cons_append, List.append_assoc]
          rw [ih]
          simp

theorem processEvent_pubs_nil (e : MEvent) :
    (processEvent e []).2.1 = false ∧ (processEvent e []).2.2 = ([] : List Bool) := by
  rcases e with ⟨k, r, enc⟩
  cases r with
  | none => exact ⟨rfl, rfl⟩
  | some t =>
    cases enc with
    | none => exact ⟨rfl, rfl⟩
    | some p => exact ⟨rfl, rfl⟩

theorem drainEvents_pubs_nil (events : List MEvent) :
    (drainEvents [] events).2.1 = Except.ok () ∧ (drainEvents [] events).2.2.1 = [] := by
  induction events with
  | nil => exact ⟨rfl, rfl⟩
  | cons e rest ih =>
    rw [drainEvents_cons_eq]
    rw [(processEvent_pubs_nil e).1, (processEvent_pubs_nil e).2]
    simpa using ih

theorem drainEvents_ok_rem (events : List MEvent) (pubs : List Bool)
    (h : (drainEvents pubs events).2.1 = Except.ok ()) :
    (drainEvents pubs events).2.2.1 = [] := by
  induction events generalizing pubs with
  | nil => rfl
  | cons e rest ih =>
    rw [drainEvents_cons_eq] at h ⊢
    cases hf : (processEvent e pubs).2.1 with
    | true => rw [hf] at h; simp at h
    | false =>
      rw [hf] at h
      simp only [Bool.false_eq_true, if_false] at h ⊢
      exact ih _ h

theorem handleEvents_ok_rem (sched : List Sel) (polls pubs : List Bool)
    (events : List MEvent)
    (h : (handleEvents sched polls pubs events).2.1 = Except.ok ()) :
    (handleEvents sched polls pubs events).2.2.1 = [] := by
  induction sched generalizing polls pubs events with
  | nil =>
    rw [handleEvents_nil_eq] at h ⊢
    exact drainEvents_ok_rem events pubs h
  | cons s sched' ih =>
    cases s with
    | poll =>
      rw [handleEvents_poll_eq] at h ⊢
      cases polls with
      | nil =>
        simp at h ⊢
        exact ih _ _ _ h
      | cons b bs =>
        cases b with
        | false => simp at h
        | true =>
          simp at h ⊢
          exact ih _ _ _ h
    | event =>
      cases events with
      | nil => rfl
      | cons e rest =>
        rw [handleEvents_event_cons_eq] at h ⊢
        cases hf : (processEvent e pubs).2.1 with
        | true => rw [hf] at h; simp at h
        | false =>
          rw [hf] at h
          simp only [Bool.false_eq_true, if_false] at h ⊢
          exact ih _ _ _ h

theorem drainEvents_no_conn_actions (events : List MEvent) (pubs : List Bool) :
    Action.connect ∉ (drainEvents pubs events).1
      ∧ Action.disconnect ∉ (drainEvents pubs events).1 := by
  induction events generalizing pubs with
  | nil => simp [drainEvents]
  | cons e rest ih =>
    rw [drainEvents_cons_eq]
    cases hf : (processEvent e pubs).2.1 with
    | true => simpa using processEvent_no_conn_actions e pubs
    | false =>
      simp only [Bool.false_eq_true, if_false, List.mem_append]
      have h1 := processEvent_no_conn_actions e pubs
      have h2 := ih (processEvent e pubs).2.2
      exact ⟨fun hc => hc.elim h1.1 h2.1, fun hc => hc.elim h1.2 h2.2⟩

theorem handleEvents_no_conn_actions (sched : List Sel) (polls pubs : List Bool)
    (events : List MEvent) :
    Action.connect ∉ (handleEvents sched polls pubs events).1
      ∧ Action.disconnect ∉ (handleEvents sched polls pubs events).1 := by
  induction sched generalizing polls pubs events with
  | nil => rw [handleEvents_nil_eq]; exact drainEvents_no_conn_actions events pubs
  | cons s sched' ih =>
    cases s with
    | poll =>
      rw [handleEvents_poll_eq]
      cases hp : polls.headD true with
      | true => simp only [if_true]; exact ih polls.tail pubs events
      | false => simp
    | event =>
      cases events with
      | nil => simp [handleEvents_event_nil_eq]
      | cons e rest =>
        rw [handleEvents_event_cons_eq]
        cases hf : (processEvent e pubs).2.1 with
        | true => simpa using processEvent_no_conn_actions e pubs
        | false =>
          simp only [Bool.false_eq_true, if_false, List.mem_append]
          have h1 := processEvent_no_conn_actions e pubs
          have h2 := ih polls (processEvent e pubs).2.2 rest
          exact ⟨fun hc => hc.elim h1.1 h2.1, fun hc => hc.elim h1.2 h2.2⟩

theorem drainEvents_publishMeta (events : List MEvent) (pubs : List Bool)
    (qb : QoS × Bool) (hqb : qb ∈ publishMeta (drainEvents pubs events).1) :
    qb = (QoS.exactlyOnce, false) := by
  induction events generalizing pubs with
  | nil => simp [drainEvents, publishMeta] at hqb
  | cons e rest ih =>
    rw [drainEvents_cons_eq] at hqb
    cases hf : (processEvent e pubs).2.1 with
    | true =>
      rw [hf] at hqb
      simp only [if_true] at hqb
      exact processEvent_publishMeta e pubs qb hqb
    | false =>
      rw [hf] at hqb
      simp only [Bool.false_eq_true, if_false, publishMeta_append, List.mem_append] at hqb
      exact hqb.elim (processEvent_publishMeta e pubs qb) (ih _)

theorem handleEvents_publishMeta (sched : List Sel) (polls pubs : List Bool)
    (events : List MEvent) (qb : QoS × Bool)
    (hqb : qb ∈ publishMeta (handleEvents sched polls pubs events).1) :
    qb = (QoS.exactlyOnce, false) := by
  induction sched generalizing polls pubs events with
  | nil =>
    rw [handleEvents_nil_eq] at hqb
    exact drainEvents_publishMeta events pubs qb hqb
  | cons s sched' ih =>
    cases s with
    | poll =>
      rw [handleEvents_poll_eq] at hqb
      cases hp : polls.headD true with
      | true => rw [hp] at hqb; simp only [if_true] at hqb; exact ih _ _ _ hqb
      | false => rw [hp] at hqb; simp [publishMeta] at hqb
    | event =>
      cases events with
      | nil => simp [handleEvents_event_nil_eq, publishMeta] at hqb
      | cons e rest =>
        rw [handleEvents_event_cons_eq] at hqb
        cases hf : (processEvent e pubs).2.1 with
        | true =>
          rw [hf] at hqb
          simp only [if_true] at hqb
          exact processEvent_publishMeta e pubs qb hqb
        | false =>
          rw [hf] at hqb
          simp only [Bool.false_eq_true, if_false, publishMeta_append, List.mem_append] at hqb
          exact hqb.elim (processEvent_publishMeta e pubs qb) (ih _ _ _)

theorem processEvent_ok_nil (e : MEvent) (hr : (e.renderResult).isSome = true)
    (he : (e.encodeResult).isSome = true) :
    publishedIds (processEvent e []).1 = [e.id]
      ∧ (processEvent e []).2.1 = false
      ∧ (processEvent e []).2.2 = ([] : List Bool) := by
  rcases e with ⟨k, r, enc⟩
  cases r with
  | none => simp at hr
  | some t =>
    cases enc with
    | none => simp at he
    | some p => exact ⟨rfl, rfl, rfl⟩

theorem drainEvents_all_ok (events : List MEvent)
    (h1 : ∀ e ∈ events, (e.renderResult).isSome = true)
    (h2 : ∀ e ∈ events, (e.encodeResult).isSome = true) :
    publishedIds (drainEvents [] events).1 = events.map MEvent.id
      ∧ (drainEvents [] events).2.1 = Except.ok () := by
  induction events with
  | nil => exact ⟨rfl, rfl⟩
  | cons e rest ih =>
    rw [drainEvents_cons_eq]
    obtain ⟨hp1, hp2, hp3⟩ := processEvent_ok_nil e (h1 e (by simp)) (h2 e (by simp))
    rw [hp2, hp3]
    simp only [Bool.false_eq_true, if_false]
    obtain ⟨ih1, ih2⟩ :=
      ih (fun x hx => h1 x (by simp [hx])) (fun x hx => h2 x (by simp [hx]))
    refine ⟨?_, ?_⟩
    · show publishedIds ((processEvent e []).1 ++ (drainEvents [] rest).1)
        = (e :: rest).map MEvent.id
      rw [publishedIds_append, hp1, ih1]
      simp
    · exact ih2

theorem run_head_connect (ev : MEvent) (evs : List MEvent) (conns : List ConnOracle) :
    (run (ev :: evs) conns).1.head? = some Action.connect := by
  cases conns with
  | nil =>
    rw [run_cons_nil_eq]
    rcases hd : drainEvents [] (ev :: evs) with ⟨acts, r, rem, p2⟩
    cases r <;> rfl
  | cons c cs =>
    rw [run_cons_cons_eq]
    rcases hh : handleEvents c.sched c.polls c.pubs (ev :: evs) with ⟨acts, r, rem, p2⟩
    cases r <;> rfl

/-! ## Claim theorems -/

/-- Claim C1, counterexample to the claim as stated: on the input event with
id 0 that renders and encodes successfully, the sink issues a publish call,
and its (qos, retain) arguments are `(ExactlyOnce, false)`, so it is false
that every publish call uses the at-least-once QoS level. -/
theorem c1_counterexample :
    publishMeta (run [⟨0, some "t", some [42]⟩] []).1 = [(QoS.exactlyOnce, false)]
      ∧ ¬ (∀ qb ∈ publishMeta (run [⟨0, some "t", some [42]⟩] []).1,
            qb = (QoS.atLeastOnce, false)) := by
  decide

/-- Claim C1, amended: every publish call issued by the sink's inner loop
uses the QoS level `ExactlyOnce` (not at-least-once) and a retain flag of
false, for every event that reaches the publish step. -/
theorem c1_publish_qos_retain (events : List MEvent) (conns : List ConnOracle)
    (qb : QoS × Bool) (hqb : qb ∈ publishMeta (run events conns).1) :
    qb = (QoS.exactlyOnce, false) := by
  induction conns generalizing events with
  | nil =>
    cases events with
    | nil => rw [run_nil_eq] at hqb; simp [publishMeta] at hqb
    | cons e rest =>
      rw [run_cons_nil_eq] at hqb
      rcases hd : drainEvents [] (e :: rest) with ⟨acts, r, rem, p2⟩
      rw [hd] at hqb
      have hmem : qb ∈ publishMeta acts := by
        cases r with
        | ok u =>
          simp only [publishMeta, List.filterMap_cons, List.filterMap_append] at hqb ⊢
          simpa using hqb
        | error u =>
          simp only [publishMeta, List.filterMap_cons] at hqb ⊢
          exact hqb
      have : qb ∈ publishMeta (drainEvents [] (e :: rest)).1 := by rw [hd]; exact hmem
      exact drainEvents_publishMeta (e :: rest) [] qb this
  | cons c cs ih =>
    cases events with
    | nil => rw [run_nil_eq] at hqb; simp [publishMeta] at hqb
    | cons e rest =>
      rw [run_cons_cons_eq] at hqb
      rcases hh : handleEvents c.sched c.polls c.pubs (e :: rest) with ⟨acts, r, rem, p2⟩
      rw [hh] at hqb
      cases r with
      | ok u =>
        simp only [publishMeta, List.filterMap_cons, List.filterMap_append,
          List.mem_append] at hqb
        rcases hqb with hqb | hqb
        · have : qb ∈ publishMeta (handleEvents c.sched c.polls c.pubs (e :: rest)).1 := by
            rw [hh]; simpa [publishMeta] using hqb
          exact handleEvents_publishMeta c.sched c.polls c.pubs (e :: rest) qb this
        · have : qb ∈ publishMeta (run rem cs).1 := by simpa [publishMeta] using hqb
          exact ih rem this
      | error u =>
        simp only [publishMeta, List.filterMap_cons, List.filterMap_append,
          List.mem_append] at hqb
        rcases hqb with hqb | hqb
        · have : qb ∈ publishMeta (handleEvents c.sched c.polls c.pubs (e :: rest)).1 := by
            rw [hh]; simpa [publishMeta] using hqb
          exact handleEvents_publishMeta c.sched c.polls c.pubs (e :: rest) qb this
        · have : qb ∈ publishMeta (run rem cs).1 := by simpa [publishMeta] using hqb
          exact ih rem this

/-- Claim C1, witness: the amended theorem applied to the concrete one-event
input whose publish call is recorded with qos `ExactlyOnce` and retain
`false`. -/
theorem c1_witness :
    (QoS.exactlyOnce, false) ∈ publishMeta (run [⟨0, some "t", some [42]⟩] []).1
      ∧ ((QoS.exactlyOnce, false) : QoS × Bool) = (QoS.exactlyOnce, false) :=
  ⟨by decide,
   c1_publish_qos_retain [⟨0, some "t", some [42]⟩] [] (QoS.exactlyOnce, false) (by decide)⟩

/-- Claim C3: if the upstream sequence is already exhausted when the sink
starts, `run` terminates successfully with an empty trace — in particular
`Connector.connect()` is never invoked — for every connection oracle. -/
theorem c3_empty_input_no_connect (conns : List ConnOracle) :
    (run [] conns).1 = []
      ∧ Action.connect ∉ (run [] conns).1
      ∧ (run [] conns).2 = Except.ok () := by
  rw [run_nil_eq]
  exact ⟨rfl, by simp, rfl⟩

/-- Claim C7: every terminating execution of `run` returns `Ok(())`:
connection-scoped and event-scoped errors never propagate out of `run`. -/
theorem c7_run_ok (events : List MEvent) (conns : List ConnOracle) :
    (run events conns).2 = Except.ok () := by
  cases events with
  | nil => rw [run_nil_eq]
  | cons e rest =>
    cases conns with
    | nil =>
      rw [run_cons_nil_eq]
      rcases hd : drainEvents [] (e :: rest) with ⟨acts, r, rem, p2⟩
      cases r <;> rfl
    | cons c cs =>
      rw [run_cons_cons_eq]
      rcases hh : handleEvents c.sched c.polls c.pubs (e :: rest) with ⟨acts, r, rem, p2⟩
      cases r <;> rfl

/-- Claim C8: `MqttConnector::new` fails with a `TopicTemplate` error exactly
when compiling the topic pattern fails, and its success or failure — and the
error it fails with — is independent of the connection parameters, which are
accepted unvalidated. -/
theorem c8_connector_new (tryFrom : String → Except TemplateParseError Template)
    (options : MqttOptions) (topic : String) :
    ((∃ e, MqttConnector.new tryFrom options topic
        = Except.error (MqttError.topicTemplate e))
      ↔ (∃ e, tryFrom topic = Except.error e))
    ∧ (MqttConnector.new tryFrom options topic).isOk = (tryFrom topic).isOk
    ∧ (∀ o1 o2 : MqttOptions, ∀ err : MqttError,
        MqttConnector.new tryFrom o1 topic = Except.error err
          ↔ MqttConnector.new tryFrom o2 topic = Except.error err) := by
  rcases htf : tryFrom topic with e | t
  · refine ⟨?_, ?_, ?_⟩
    · simp [MqttConnector.new, htf]
    · simp [MqttConnector.new, htf, Except.isOk, Except.toBool]
    · intro o1 o2 err
      simp [MqttConnector.new, htf]
  · refine ⟨?_, ?_, ?_⟩
    · simp [MqttConnector.new, htf]
    · simp [MqttConnector.new, htf, Except.isOk, Except.toBool]
    · intro o1 o2 err
      simp [MqttConnector.new, htf]

/-- Claim C10: for every pulled event the finalizer handle is detached
(`take_finalizers`) strictly before topic rendering begins — the first trace
action is the detach and the second is the render — and when rendering fails
the whole pipeline for that event is detach, failed render, render-error
observation, and an `Errored` report on the detached finalizer, with no
encode and no publish action. -/
theorem c10_detach_before_render (e : MEvent) (pubs : List Bool)
    (h : e.renderResult = none) :
    (processEvent e pubs).1
      = [Action.detach e.id, Action.render e.id false, Action.emitRenderError e.id,
         Action.report e.id EventStatus.errored]
    ∧ (∀ (e' : MEvent) (pubs' : List Bool),
        ((processEvent e' pubs').1).head? = some (Action.detach e'.id)
        ∧ ((processEvent e' pubs').1)[1]?
            = some (Action.render e'.id (e'.renderResult).isSome)) := by
  constructor
  · rcases e with ⟨k, r, enc⟩
    simp only at h
    subst h
    rfl
  · intro e' pubs'
    rcases e' with ⟨k, r, enc⟩
    cases r with
    | none => exact ⟨rfl, rfl⟩
    | some t =>
      cases enc with
      | none => exact ⟨rfl, rfl⟩
      | some p =>
        cases pubs' with
        | nil => exact ⟨rfl, rfl⟩
        | cons b bs => cases b <;> exact ⟨rfl, rfl⟩

/-- Claim C10, witness: the theorem applied to a concrete event whose
rendering fails. -/
theorem c10_witness :
    (processEvent ⟨2, none, none⟩ []).1
      = [Action.detach 2, Action.render 2 false, Action.emitRenderError 2,
         Action.report 2 EventStatus.errored] :=
  (c10_detach_before_render ⟨2, none, none⟩ [] rfl).1

/-- Claim C2: for every finite upstream sequence and every oracle, after
`run` terminates the sequence of finalizer-reported event ids equals the
sequence of pulled event ids — every pulled event receives exactly one
status report, never zero and never more than one, on every exit path of
the inner loop. -/
theorem c2_exactly_one_report (events : List MEvent) (conns : List ConnOracle) :
    reportedIds (run events conns).1 = events.map MEvent.id := by
  induction conns generalizing events with
  | nil =>
    cases events with
    | nil => rw [run_nil_eq]; rfl
    | cons e rest =>
      rw [run_cons_nil_eq]
      obtain ⟨hok, hrem⟩ := drainEvents_pubs_nil (e :: rest)
      have hrep := drainEvents_reportedIds (e :: rest) ([] : List Bool)
      rw [hrem] at hrep
      rcases hd : drainEvents [] (e :: rest) with ⟨acts, r, rem, p2⟩
      rw [hd] at hok hrep
      simp only [List.map_nil, List.append_nil] at hrep
      simp only at hok
      subst hok
      show reportedIds (Action.connect :: (acts ++ [Action.disconnect]))
        = (e :: rest).map MEvent.id
      simp only [reportedIds, List.filterMap_cons, List.filterMap_append] at hrep ⊢
      simpa using hrep
  | cons c cs ih =>
    cases events with
    | nil => rw [run_nil_eq]; rfl
    | cons e rest =>
      rw [run_cons_cons_eq]
      have hrep := handleEvents_reportedIds c.sched c.polls c.pubs (e :: rest)
      rcases hh : handleEvents c.sched c.polls c.pubs (e :: rest) with ⟨acts, r, rem, p2⟩
      rw [hh] at hrep
      simp only at hrep
      cases r with
      | ok u =>
        cases u
        have hrem : rem = [] := by
          have h2 := handleEvents_ok_rem c.sched c.polls c.pubs (e :: rest) (by rw [hh])
          rw [hh] at h2
          simpa using h2
        subst hrem
        show reportedIds (Action.connect :: (acts ++ Action.disconnect :: (run [] cs).1))
          = (e :: rest).map MEvent.id
        rw [run_nil_eq]
        simp only [List.map_nil, List.append_nil] at hrep
        simp only [reportedIds, List.filterMap_cons, List.filterMap_append] at hrep ⊢
        simpa using hrep
      | error u =>
        cases u
        show reportedIds (Action.connect :: (acts ++ (run rem cs).1))
          = (e :: rest).map MEvent.id
        have hrun := ih rem
        simp only [reportedIds, List.filterMap_cons, List.filterMap_append] at hrep hrun ⊢
        rw [hrun]
        exact hrep

/-- Claim C4: for an event on which topic rendering or encoding fails, the
sink reports `Errored` on that event's finalizer only, issues no publish
call for it, leaves the publish oracle untouched, and the inner loop
continues non-fatally: the next event is processed in the same
`handle_events` invocation, whose trace never contains a connect action
(no reconnect occurs within the inner loop). -/
theorem c4_event_scoped_isolation (sched : List Sel) (polls pubs : List Bool)
    (e : MEvent) (rest : List MEvent)
    (h : e.renderResult = none ∨ e.encodeResult = none) :
    reportsOf (processEvent e pubs).1 = [(e.id, EventStatus.errored)]
    ∧ publishedIds (processEvent e pubs).1 = []
    ∧ (processEvent e pubs).2.1 = false
    ∧ (processEvent e pubs).2.2 = pubs
    ∧ handleEvents (Sel.event :: sched) polls pubs (e :: rest)
        = ((processEvent e pubs).1 ++ (handleEvents sched polls pubs rest).1,
           (handleEvents sched polls pubs rest).2.1,
           (handleEvents sched polls pubs rest).2.2.1,
           (handleEvents sched polls pubs rest).2.2.2)
    ∧ (∀ (sched' : List Sel) (polls' pubs' : List Bool) (evs : List MEvent),
        Action.connect ∉ (handleEvents sched' polls' pubs' evs).1) := by
  have hfacts : reportsOf (processEvent e pubs).1 = [(e.id, EventStatus.errored)]
      ∧ publishedIds (processEvent e pubs).1 = []
      ∧ (processEvent e pubs).2.1 = false
      ∧ (processEvent e pubs).2.2 = pubs := by
    rcases h with hr | he
    · simp [processEvent, hr, reportsOf, publishedIds]
    · rcases hr2 : e.renderResult with _ | t
      · simp [processEvent, hr2, reportsOf, publishedIds]
      · simp [processEvent, hr2, he, reportsOf, publishedIds]
  refine ⟨hfacts.1, hfacts.2.1, hfacts.2.2.1, hfacts.2.2.2, ?_, ?_⟩
  · rw [handleEvents_event_cons_eq, hfacts.2.2.1, hfacts.2.2.2]
    simp only [Bool.false_eq_true, if_false]
  · intro sched' polls' pubs' evs
    exact (handleEvents_no_conn_actions sched' polls' pubs' evs).1

/-- Claim C4, witness: the theorem applied to a concrete render-failing
event at the head of a singleton batch. -/
theorem c4_witness :
    reportsOf (processEvent ⟨1, none, some [0]⟩ []).1 = [(1, EventStatus.errored)]
      ∧ publishedIds (processEvent ⟨1, none, some [0]⟩ []).1 = [] :=
  ⟨(c4_event_scoped_isolation [] [] [] ⟨1, none, some [0]⟩ [] (Or.inl rfl)).1,
   (c4_event_scoped_isolation [] [] [] ⟨1, none, some [0]⟩ [] (Or.inl rfl)).2.1⟩

/-- Claim C5: a transport-poll error makes the inner loop return failure
immediately; a publish-call error makes the event's pipeline end with an
`Errored` report on its finalizer and the inner loop return failure with
the remaining events unconsumed; and after such a failed connection the
outer loop establishes a new connection (the continuation trace begins
with a connect action) and processing resumes. -/
theorem c5_connection_scoped (sched : List Sel) (polls pubs : List Bool)
    (e : MEvent) (rest : List MEvent) (cs : List ConnOracle) (d : Bool)
    (t : String) (p : List Nat)
    (hr : e.renderResult = some t) (he : e.encodeResult = some p) :
    (∀ (sched' : List Sel) (polls' pubs' : List Bool) (evs : List MEvent),
        handleEvents (Sel.poll :: sched') (false :: polls') pubs' evs
          = ([Action.emitConnectionError], Except.error (), evs, pubs'))
    ∧ processEvent e (false :: pubs)
        = ([Action.detach e.id, Action.render e.id true, Action.transform e.id,
            Action.encode e.id true, Action.publish e.id t QoS.exactlyOnce false p,
            Action.emitClientError e.id, Action.report e.id EventStatus.errored],
           true, pubs)
    ∧ handleEvents (Sel.event :: sched) polls (false :: pubs) (e :: rest)
        = ((processEvent e (false :: pubs)).1, Except.error (), rest, pubs)
    ∧ (run (e :: rest) (⟨[Sel.poll], [false], pubs, d⟩ :: cs)).1
        = Action.connect :: Action.emitConnectionError :: (run (e :: rest) cs).1
    ∧ (run (e :: rest) cs).1.head? = some Action.connect := by
  have ha : ∀ (sched' : List Sel) (polls' pubs' : List Bool) (evs : List MEvent),
      handleEvents (Sel.poll :: sched') (false :: polls') pubs' evs
        = ([Action.emitConnectionError], Except.error (), evs, pubs') := by
    intro sched' polls' pubs' evs
    rw [handleEvents_poll_eq]
    simp
  have hb : processEvent e (false :: pubs)
      = ([Action.detach e.id, Action.render e.id true, Action.transform e.id,
          Action.encode e.id true, Action.publish e.id t QoS.exactlyOnce false p,
          Action.emitClientError e.id, Action.report e.id EventStatus.errored],
         true, pubs) := by
    simp [processEvent, hr, he]
  refine ⟨ha, hb, ?_, ?_, run_head_connect e rest cs⟩
  · rw [handleEvents_event_cons_eq, hb]
    simp
  · have hc := ha [] [] pubs (e :: rest)
    simp [run_cons_cons_eq, hc]

/-- Claim C5, witness: the theorem applied to a concrete event whose
publish call fails and a concrete failed-poll connection oracle. -/
theorem c5_witness :
    processEvent ⟨3, some "w", some [7]⟩ [false]
      = ([Action.detach 3, Action.render 3 true, Action.transform 3, Action.encode 3 true,
          Action.publish 3 "w" QoS.exactlyOnce false [7], Action.emitClientError 3,
          Action.report 3 EventStatus.errored], true, [])
    ∧ (run [⟨3, some "w", some [7]⟩] []).1.head? = some Action.connect :=
  ⟨(c5_connection_scoped [] [] [] ⟨3, some "w", some [7]⟩ [] [] false "w" [7]
      rfl rfl).2.1,
   (c5_connection_scoped [] [] [] ⟨3, some "w", some [7]⟩ [] [] false "w" [7]
      rfl rfl).2.2.2.2⟩

/-- Claim C6: the outer loop appends a graceful disconnect to a
connection's trace segment exactly when the inner loop exited with success;
on inner-loop failure the segment is the connect plus the inner trace with
no disconnect call (the inner loop itself never emits one); and the
outcome of the disconnect is discarded — `run` is unchanged under any value
of the disconnect-outcome oracle. -/
theorem c6_disconnect_iff_success (e : MEvent) (rest : List MEvent) (c : ConnOracle)
    (cs : List ConnOracle) :
    (run (e :: rest) (c :: cs)).1
      = (match handleEvents c.sched c.polls c.pubs (e :: rest) with
         | (acts, Except.ok _, _, _) => Action.connect :: (acts ++ [Action.disconnect])
         | (acts, Except.error _, rem, _) => Action.connect :: (acts ++ (run rem cs).1))
    ∧ (∀ (sched' : List Sel) (polls' pubs' : List Bool) (evs : List MEvent),
        Action.disconnect ∉ (handleEvents sched' polls' pubs' evs).1)
    ∧ (∀ (evs : List MEvent) (b : Bool),
        run evs ({c with disconnectOk := b} :: cs) = run evs (c :: cs)) := by
  refine ⟨?_, ?_, ?_⟩
  · rw [run_cons_cons_eq]
    rcases hh : handleEvents c.sched c.polls c.pubs (e :: rest) with ⟨acts, r, rem, p2⟩
    cases r with
    | ok u =>
      cases u
      have hrem : rem = [] := by
        have h2 := handleEvents_ok_rem c.sched c.polls c.pubs (e :: rest) (by rw [hh])
        rw [hh] at h2
        simpa using h2
      subst hrem
      show Action.connect :: (acts ++ Action.disconnect :: (run [] cs).1)
        = Action.connect :: (acts ++ [Action.disconnect])
      rw [run_nil_eq]
    | error u => rfl
  · intro sched' polls' pubs' evs
    exact (handleEvents_no_conn_actions sched' polls' pubs' evs).2
  · intro evs b
    cases evs with
    | nil => rfl
    | cons ev evs' => rfl

/-- Claim C9: for a sequence of events that all render, encode and publish
successfully on one uninterrupted connection (no failed polls, every
publish call accepted), the publish calls occur in exactly the order the
events were yielded by the upstream sequence, and the inner loop ends with
success. -/
theorem c9_ordering (sched : List Sel) (polls : List Bool) (events : List MEvent)
    (h1 : ∀ e ∈ events, (e.renderResult).isSome = true)
    (h2 : ∀ e ∈ events, (e.encodeResult).isSome = true)
    (h3 : ∀ b ∈ polls, b = true) :
    publishedIds (handleEvents sched polls [] events).1 = events.map MEvent.id
    ∧ (handleEvents sched polls [] events).2.1 = Except.ok () := by
  induction sched generalizing polls events with
  | nil => rw [handleEvents_nil_eq]; exact drainEvents_all_ok events h1 h2
  | cons s sched' ih =>
    cases s with
    | poll =>
      rw [handleEvents_poll_eq]
      cases polls with
      | nil =>
        simp only [List.headD_nil, if_true]
        exact ih [] events h1 h2 (by simp)
      | cons b bs =>
        have hbtrue : b = true := h3 b (by simp)
        subst hbtrue
        simp only [List.headD_cons, if_true, List.tail_cons]
        exact ih bs events h1 h2 (fun x hx => h3 x (by simp [hx]))
    | event =>
      cases events with
      | nil => rw [handleEvents_event_nil_eq]; exact ⟨rfl, rfl⟩
      | cons e rest =>
        rw [handleEvents_event_cons_eq]
        obtain ⟨hp1, hp2, hp3⟩ := processEvent_ok_nil e (h1 e (by simp)) (h2 e (by simp))
        rw [hp2, hp3]
        simp only [Bool.false_eq_true, if_false]
        obtain ⟨ih1, ih2⟩ := ih polls rest
          (fun x hx => h1 x (by simp [hx])) (fun x hx => h2 x (by simp [hx])) h3
        refine ⟨?_, ?_⟩
        · show publishedIds ((processEvent e []).1 ++ (handleEvents sched' polls [] rest).1)
            = (e :: rest).map MEvent.id
          rw [publishedIds_append, hp1, ih1]
          simp
        · exact ih2

/-- Claim C9, witness: two concrete all-successful events interleaved with
one successful poll keep their upstream order in the publish trace. -/
theorem c9_witness :
    publishedIds (handleEvents [Sel.poll, Sel.event] [true] []
        [⟨0, some "a", some [1]⟩, ⟨1, some "b", some []⟩]).1 = [0, 1] :=
  (c9_ordering [Sel.poll, Sel.event] [true]
    [⟨0, some "a", some [1]⟩, ⟨1, some "b", some []⟩]
    (by decide) (by decide) (by decide)).1

end MqttModel
